import Mathlib

/-!
Shallow embedding of the `cccost` aggregation pipeline
(`src/item.rs`, `src/file_processor.rs`).

Machine integers: the token counters of `Usage` are Rust `u32` values;
we embed them as `Nat` together with the well-formedness predicate
`Usage.Wf` (every present field is `< 2^32`), and `u32` addition as
addition modulo `2^32`.
-/

/-- The modulus of 32-bit unsigned arithmetic (`u32`). -/
def u32Mod : Nat := 4294967296

/-- `struct Usage` (src/item.rs): four optional token counters. -/
structure Usage where
  input_tokens : Option Nat
  output_tokens : Option Nat
  cache_creation_input_tokens : Option Nat
  cache_read_input_tokens : Option Nat
  deriving DecidableEq, Repr

/-- The `Default::default()` value of `Usage`: all four fields absent. -/
def Usage.empty : Usage := ⟨none, none, none, none⟩

/-- The per-field match of `impl Add for Usage` (src/item.rs):
each of the four fields is combined by this same four-way match,
with `u32` addition embedded as addition mod `2^32`. -/
def addField : Option Nat → Option Nat → Option Nat
  | some a, some b => some ((a + b) % u32Mod)
  | some a, none => some a
  | none, some b => some b
  | none, none => none

/-- `impl Add for Usage` (src/item.rs). -/
def Usage.add (self other : Usage) : Usage :=
  { input_tokens := addField self.input_tokens other.input_tokens
    output_tokens := addField self.output_tokens other.output_tokens
    cache_creation_input_tokens :=
      addField self.cache_creation_input_tokens other.cache_creation_input_tokens
    cache_read_input_tokens :=
      addField self.cache_read_input_tokens other.cache_read_input_tokens }

/-- A field is a well-formed `u32` embedding: present values are below `2^32`. -/
def fieldWf : Option Nat → Prop
  | some n => n < u32Mod
  | none => True

instance (o : Option Nat) : Decidable (fieldWf o) :=
  match o with
  | some n => (inferInstance : Decidable (n < u32Mod))
  | none => .isTrue trivial

/-- All four fields of the counter are well-formed `u32` embeddings. -/
def Usage.Wf (u : Usage) : Prop :=
  fieldWf u.input_tokens ∧ fieldWf u.output_tokens ∧
    fieldWf u.cache_creation_input_tokens ∧ fieldWf u.cache_read_input_tokens

instance (u : Usage) : Decidable u.Wf := by
  unfold Usage.Wf; infer_instance

theorem addField_comm (a b : Option Nat) : addField a b = addField b a := by
  cases a <;> cases b <;> simp [addField, Nat.add_comm]

theorem addField_assoc (a b c : Option Nat) :
    addField (addField a b) c = addField a (addField b c) := by
  cases a <;> cases b <;> cases c <;> simp [addField, u32Mod]
  omega

theorem addField_none_right (a : Option Nat) : addField a none = a := by
  cases a <;> rfl

theorem addField_none_left (a : Option Nat) : addField none a = a := by
  cases a <;> rfl

theorem Usage.add_comm (a b : Usage) : a.add b = b.add a := by
  simp [Usage.add, addField_comm]

theorem Usage.add_assoc (a b c : Usage) : (a.add b).add c = a.add (b.add c) := by
  simp [Usage.add, addField_assoc]

theorem Usage.add_empty (a : Usage) : a.add Usage.empty = a := by
  simp [Usage.add, Usage.empty, addField_none_right]

theorem Usage.empty_add (a : Usage) : Usage.empty.add a = a := by
  simp [Usage.add, Usage.empty, addField_none_left]

/-! ## Calendar dates and the chrono timestamp model

`Item::get_timestamp_key` (src/item.rs) parses the timestamp with
`str::parse::<DateTime<Utc>>` (chrono: an RFC 3339 timestamp, converted
to UTC) and formats it with `%Y-%m-%d`.  We model the parse by computing
the UTC calendar date of the instant, which is all that `%Y-%m-%d` uses.
-/

/-- A proleptic-Gregorian calendar date, as used by chrono. -/
structure YMD where
  year : Int
  month : Nat
  day : Nat
  deriving DecidableEq, Repr

/-- Gregorian leap-year rule. -/
def isLeapYear (y : Int) : Bool :=
  y % 4 == 0 && (y % 100 != 0 || y % 400 == 0)

/-- Number of days in a month of a given year. -/
def daysInMonth (y : Int) (m : Nat) : Nat :=
  if m = 2 then (if isLeapYear y then 29 else 28)
  else if m = 4 ∨ m = 6 ∨ m = 9 ∨ m = 11 then 30
  else 31

/-- The calendar day after `d`. -/
def nextDay (d : YMD) : YMD :=
  if d.day < daysInMonth d.year d.month then ⟨d.year, d.month, d.day + 1⟩
  else if d.month < 12 then ⟨d.year, d.month + 1, 1⟩
  else ⟨d.year + 1, 1, 1⟩

/-- The calendar day before `d`. -/
def prevDay (d : YMD) : YMD :=
  if 1 < d.day then ⟨d.year, d.month, d.day - 1⟩
  else if 1 < d.month then ⟨d.year, d.month - 1, daysInMonth d.year (d.month - 1)⟩
  else ⟨d.year - 1, 12, 31⟩

/-- Value of a two-digit decimal field. -/
def digit2 (a b : Char) : Option Nat :=
  if a.isDigit ∧ b.isDigit then some ((a.toNat - 48) * 10 + (b.toNat - 48)) else none

/-- Value of a four-digit decimal field. -/
def digit4 (a b c d : Char) : Option Nat :=
  if a.isDigit ∧ b.isDigit ∧ c.isDigit ∧ d.isDigit then
    some ((((a.toNat - 48) * 10 + (b.toNat - 48)) * 10 + (c.toNat - 48)) * 10
      + (d.toNat - 48))
  else none

/-- Skip an optional fractional-seconds part `.digits` (at least one digit). -/
def dropFraction : List Char → Option (List Char)
  | '.' :: rest =>
      match rest.takeWhile Char.isDigit with
      | [] => none
      | _ => some (rest.dropWhile Char.isDigit)
  | rest => some rest

/-- Parse the RFC 3339 offset suffix (which must end the string) to minutes. -/
def parseOffsetMinutes : List Char → Option Int
  | [ 'Z' ] => some 0
  | [ 'z' ] => some 0
  | [ s, h1, h2, ':', m1, m2 ] =>
      if s = '+' ∨ s = '-' then
        match digit2 h1 h2, digit2 m1 m2 with
        | some oh, some om =>
            if oh ≤ 23 ∧ om ≤ 59 then
              let mins : Int := oh * 60 + om
              some (if s = '-' then -mins else mins)
            else none
        | _, _ => none
      else none
  | _ => none

/-- Models chrono `str::parse::<DateTime<Utc>>` on an RFC 3339 timestamp,
returning the UTC calendar date of the parsed instant (`none` on parse
failure).  The date/time digits are fixed-width, the separator may be
`T`, `t` or a space, fractional seconds are optional, and the offset
(`Z`/`z` or `±HH:MM`) is applied to obtain the UTC date. -/
def parseUtcDate (s : String) : Option YMD :=
  match s.data with
  | y1 :: y2 :: y3 :: y4 :: '-' :: mo1 :: mo2 :: '-' :: d1 :: d2 ::
      sep :: h1 :: h2 :: ':' :: mi1 :: mi2 :: ':' :: s1 :: s2 :: rest =>
    match digit4 y1 y2 y3 y4, digit2 mo1 mo2, digit2 d1 d2, digit2 h1 h2,
        digit2 mi1 mi2, digit2 s1 s2 with
    | some y, some mo, some d, some h, some mi, some se =>
      if (sep = 'T' ∨ sep = 't' ∨ sep = ' ') ∧ 1 ≤ mo ∧ mo ≤ 12 ∧ 1 ≤ d ∧
          d ≤ daysInMonth (y : Int) mo ∧ h ≤ 23 ∧ mi ≤ 59 ∧ se ≤ 60 then
        match dropFraction rest with
        | some rest2 =>
          match parseOffsetMinutes rest2 with
          | some off =>
            let date : YMD := ⟨(y : Int), mo, d⟩
            let utcMins : Int := (h * 60 + mi : Nat) - off
            some (if utcMins < 0 then prevDay date
                  else if 1440 ≤ utcMins then nextDay date else date)
          | none => none
        | none => none
      else none
    | _, _, _, _, _, _ => none
  | _ => none

/-- Left-pad the decimal representation of `n` with zeros to `width`. -/
def padNat (width n : Nat) : String :=
  String.mk (List.replicate (width - (toString n).length) '0') ++ toString n

/-- chrono `%Y`: four digits, sign-prefixed outside `0..=9999`. -/
def formatYear (y : Int) : String :=
  if y < 0 then "-" ++ padNat 4 (-y).toNat
  else if 9999 < y then "+" ++ toString y.toNat
  else padNat 4 y.toNat

/-- chrono `%Y-%m-%d` on a date. -/
def formatYMD (d : YMD) : String :=
  formatYear d.year ++ "-" ++ padNat 2 d.month ++ "-" ++ padNat 2 d.day

/-! ## The record data model (src/item.rs) -/

/-- `struct Item` (src/item.rs): one normalized record. -/
structure Item where
  model : String
  timestamp : String
  usage : Option Usage
  deriving DecidableEq, Repr

/-- `struct Message` (src/item.rs). -/
structure Message where
  model : Option String
  usage : Option Usage
  deriving DecidableEq, Repr

/-- `struct LogEntry` (src/item.rs). -/
structure LogEntry where
  timestamp : String
  message : Message
  deriving DecidableEq, Repr

/-- `Item::from_log_entry` (src/item.rs): builds a record iff a model
name is present, carrying the usage over unchanged. -/
def Item.from_log_entry (entry : LogEntry) : Option Item :=
  entry.message.model.map fun model =>
    { model := model, timestamp := entry.timestamp, usage := entry.message.usage }

/-- `Item::get_timestamp_key` (src/item.rs): the date bucket. -/
def Item.get_timestamp_key (it : Item) : String :=
  match parseUtcDate it.timestamp with
  | some d => formatYMD d
  | none => it.timestamp

example : parseUtcDate "2024-01-01T00:00:00Z" = some ⟨2024, 1, 1⟩ := by decide
example : parseUtcDate "2024-03-01T01:30:00+05:00" = some ⟨2024, 2, 29⟩ := by decide
example : parseUtcDate "2023-12-31T23:30:00-01:15" = some ⟨2024, 1, 1⟩ := by decide
example : parseUtcDate "2024-01-01" = none := by decide
example : formatYMD ⟨2024, 2, 29⟩ = "2024-02-29" := by decide

/-! ## JSON values and the serde_json parsing model

`FileProcessor` (src/file_processor.rs) parses text with
`serde_json::from_str::<Value>` and decodes values with
`serde_json::from_value::<LogEntry>`.  We model JSON values and the
parser; numbers keep their integer part and whether the literal was an
integer (no fraction/exponent), which is all the `u32` decoding needs.
-/

/-- The opening curly brace. -/
def openBrace : Char := Char.ofNat 123

/-- The closing curly brace. -/
def closeBrace : Char := Char.ofNat 125

/-- Models `serde_json::Value`. -/
inductive JValue where
  | null
  | bool (b : Bool)
  | num (intPart : Int) (isInt : Bool)
  | str (s : String)
  | arr (elems : List JValue)
  | obj (fields : List (String × JValue))
  deriving Repr

/-- JSON insignificant whitespace. -/
def isJsonWs (c : Char) : Bool := c = ' ' ∨ c = '\t' ∨ c = '\n' ∨ c = '\r'

/-- Drop leading JSON whitespace. -/
def skipWs : List Char → List Char
  | c :: rest => if isJsonWs c then skipWs rest else c :: rest
  | [] => []

/-- Hexadecimal digit value. -/
def hexVal (c : Char) : Option Nat :=
  if c.isDigit then some (c.toNat - 48)
  else if 'a' ≤ c ∧ c ≤ 'f' then some (c.toNat - 87)
  else if 'A' ≤ c ∧ c ≤ 'F' then some (c.toNat - 55)
  else none

/-- Value of a `\uXXXX` escape. -/
def hex4 (a b c d : Char) : Option Nat := do
  let va ← hexVal a
  let vb ← hexVal b
  let vc ← hexVal c
  let vd ← hexVal d
  pure (((va * 16 + vb) * 16 + vc) * 16 + vd)

/-- Simple escape characters after a backslash. -/
def escChar (e : Char) : Option Char :=
  if e = '"' ∨ e = '\\' ∨ e = '/' then some e
  else if e = 'b' then some (Char.ofNat 8)
  else if e = 'f' then some (Char.ofNat 12)
  else if e = 'n' then some '\n'
  else if e = 'r' then some '\r'
  else if e = 't' then some '\t'
  else none

/-- Parse the body of a JSON string after the opening quote: escapes are
decoded (`\uXXXX` with mandatory surrogate pairing), unescaped control
characters, lone backslashes and unterminated strings are rejected. -/
def parseStringRest : List Char → List Char → Option (String × List Char)
  | '"' :: rest, acc => some (String.mk acc.reverse, rest)
  | '\\' :: 'u' :: a :: b :: c :: d :: rest, acc =>
      match hex4 a b c d with
      | none => none
      | some n =>
        if 55296 ≤ n ∧ n ≤ 56319 then
          match rest with
          | '\\' :: 'u' :: a2 :: b2 :: c2 :: d2 :: rest2 =>
              match hex4 a2 b2 c2 d2 with
              | some m =>
                  if 56320 ≤ m ∧ m ≤ 57343 then
                    parseStringRest rest2
                      (Char.ofNat (65536 + (n - 55296) * 1024 + (m - 56320)) :: acc)
                  else none
              | none => none
          | _ => none
        else if 56320 ≤ n ∧ n ≤ 57343 then none
        else parseStringRest rest (Char.ofNat n :: acc)
  | '\\' :: e :: rest, acc =>
      match escChar e with
      | some c => parseStringRest rest (c :: acc)
      | none => none
  | c :: rest, acc =>
      if c = '\\' ∨ c.toNat < 32 then none
      else parseStringRest rest (c :: acc)
  | [], _ => none

/-- Decimal value of a digit run. -/
def digitsVal (ds : List Char) : Nat :=
  ds.foldl (fun acc c => acc * 10 + (c.toNat - 48)) 0

/-- The integer-part digits of a JSON number (leading zeros rejected by
ending the number after a first `0`, as serde_json does). -/
def parseIntDigits : List Char → Option (List Char × List Char)
  | '0' :: rest => some ([ '0' ], rest)
  | cs =>
      match cs.takeWhile Char.isDigit with
      | [] => none
      | ds => some (ds, cs.dropWhile Char.isDigit)

/-- Optional fraction part; `true` iff one was present. -/
def parseFracPart : List Char → Option (Bool × List Char)
  | '.' :: r =>
      match r.takeWhile Char.isDigit with
      | [] => none
      | _ => some (true, r.dropWhile Char.isDigit)
  | cs => some (false, cs)

/-- Optional exponent part; `true` iff one was present. -/
def parseExpPart : List Char → Option (Bool × List Char)
  | e :: r =>
      if e = 'e' ∨ e = 'E' then
        let r2 := match r with
          | '+' :: r3 => r3
          | '-' :: r3 => r3
          | _ => r
        match r2.takeWhile Char.isDigit with
        | [] => none
        | _ => some (true, r2.dropWhile Char.isDigit)
      else some (false, e :: r)
  | [] => some (false, [])

/-- Parse a JSON number.  Integer literals out of the `u64`/`i64` range
are rejected (serde_json without `arbitrary_precision`); literals with a
fraction or exponent become non-integer numbers. -/
def parseNumber (cs : List Char) : Option (JValue × List Char) :=
  let (neg, cs1) :=
    match cs with
    | '-' :: rest => (true, rest)
    | _ => (false, cs)
  match parseIntDigits cs1 with
  | none => none
  | some (ds, rest1) =>
    match parseFracPart rest1 with
    | none => none
    | some (hasFrac, rest2) =>
      match parseExpPart rest2 with
      | none => none
      | some (hasExp, rest3) =>
        let mag : Nat := digitsVal ds
        let isInt := ¬ hasFrac ∧ ¬ hasExp
        if isInt ∧ ((¬ neg ∧ 18446744073709551615 < mag) ∨
            (neg ∧ 9223372036854775808 < mag)) then none
        else
          let v : Int := if neg then -(mag : Int) else (mag : Int)
          some (JValue.num v (decide isInt), rest3)

/-- Replace-or-append a field, as `serde_json`'s map `insert` resolves
duplicate object keys (the later value wins). -/
def insertField : List (String × JValue) → String → JValue → List (String × JValue)
  | [], k, v => [(k, v)]
  | (k', v') :: rest, k, v =>
      if k' = k then (k, v) :: rest else (k', v') :: insertField rest k v

mutual

/-- Models `serde_json` value parsing (fuelled; the top-level entry point
supplies ample fuel, each call consumes input before recursing). -/
def parseVal : Nat → List Char → Option (JValue × List Char)
  | 0, _ => none
  | fuel + 1, cs =>
    match skipWs cs with
    | 'n' :: 'u' :: 'l' :: 'l' :: rest => some (JValue.null, rest)
    | 't' :: 'r' :: 'u' :: 'e' :: rest => some (JValue.bool true, rest)
    | 'f' :: 'a' :: 'l' :: 's' :: 'e' :: rest => some (JValue.bool false, rest)
    | '"' :: rest => (parseStringRest rest []).map fun p => (JValue.str p.1, p.2)
    | '[' :: rest =>
        (match skipWs rest with
         | ']' :: rest2 => some (JValue.arr [], rest2)
         | cs2 => parseArrElems fuel cs2 [])
    | c :: rest =>
        if c = openBrace then
          match skipWs rest with
          | c2 :: rest2 =>
              if c2 = closeBrace then some (JValue.obj [], rest2)
              else parseObjFields fuel (c2 :: rest2) []
          | [] => none
        else parseNumber (c :: rest)
    | [] => none

/-- Array elements after the opening bracket (at least one). -/
def parseArrElems : Nat → List Char → List JValue → Option (JValue × List Char)
  | 0, _, _ => none
  | fuel + 1, cs, acc =>
    match parseVal fuel cs with
    | none => none
    | some (v, rest) =>
      match skipWs rest with
      | ',' :: rest2 => parseArrElems fuel (skipWs rest2) (v :: acc)
      | ']' :: rest2 => some (JValue.arr (v :: acc).reverse, rest2)
      | _ => none

/-- Object members after the opening brace (at least one). -/
def parseObjFields : Nat → List Char → List (String × JValue) →
    Option (JValue × List Char)
  | 0, _, _ => none
  | fuel + 1, cs, acc =>
    match skipWs cs with
    | '"' :: rest =>
      match parseStringRest rest [] with
      | none => none
      | some (k, rest1) =>
        match skipWs rest1 with
        | ':' :: rest2 =>
          match parseVal fuel (skipWs rest2) with
          | none => none
          | some (v, rest3) =>
            let acc2 := insertField acc k v
            match skipWs rest3 with
            | ',' :: rest4 => parseObjFields fuel (skipWs rest4) acc2
            | c :: rest4 =>
                if c = closeBrace then some (JValue.obj acc2, rest4) else none
            | [] => none
        | _ => none
    | _ => none

end

/-- Models `serde_json::from_str::<Value>`: one JSON document, with only
whitespace allowed after it. -/
def json_from_str (s : String) : Option JValue :=
  match parseVal (2 * s.data.length + 4) s.data with
  | some (v, rest) => if skipWs rest = [] then some v else none
  | none => none

/-! ## Decoding a `Value` into a `LogEntry` (serde derive semantics)

Models `serde_json::from_value::<LogEntry>` for the derived
`Deserialize` impls: required fields must be present with the right
type, `Option` fields treat absent and `null` as `None` but fail on a
type mismatch, and unknown fields are ignored. -/

/-- Look up an object field by name (parsed objects have unique keys). -/
def getField : List (String × JValue) → String → Option JValue
  | [], _ => none
  | (k', v) :: rest, k => if k' = k then some v else getField rest k

/-- `u32` deserialization: an integer literal in `0..2^32`. -/
def decodeU32 : JValue → Option Nat
  | JValue.num n isInt =>
      if isInt ∧ 0 ≤ n ∧ n < (u32Mod : Int) then some n.toNat else none
  | _ => none

/-- `Option<u32>` field: absent or `null` is `None`; a wrong type fails. -/
def decodeOptU32 : Option JValue → Option (Option Nat)
  | none => some none
  | some JValue.null => some none
  | some v => (decodeU32 v).map some

/-- `Usage` deserialization. -/
def decodeUsage : JValue → Option Usage
  | JValue.obj fs => do
      let a ← decodeOptU32 (getField fs "input_tokens")
      let b ← decodeOptU32 (getField fs "output_tokens")
      let c ← decodeOptU32 (getField fs "cache_creation_input_tokens")
      let d ← decodeOptU32 (getField fs "cache_read_input_tokens")
      pure ⟨a, b, c, d⟩
  | _ => none

/-- `Option<Usage>` field. -/
def decodeOptUsage : Option JValue → Option (Option Usage)
  | none => some none
  | some JValue.null => some none
  | some v => (decodeUsage v).map some

/-- `Option<String>` field. -/
def decodeOptString : Option JValue → Option (Option String)
  | none => some none
  | some JValue.null => some none
  | some (JValue.str s) => some (some s)
  | some _ => none

/-- `Message` deserialization. -/
def decodeMessage : JValue → Option Message
  | JValue.obj fs => do
      let m ← decodeOptString (getField fs "model")
      let u ← decodeOptUsage (getField fs "usage")
      pure ⟨m, u⟩
  | _ => none

/-- `LogEntry` deserialization: `timestamp` must be a string and
`message` a decodable object. -/
def decodeLogEntry : JValue → Option LogEntry
  | JValue.obj fs =>
      match getField fs "timestamp", getField fs "message" with
      | some (JValue.str ts), some mv => (decodeMessage mv).map fun m => ⟨ts, m⟩
      | _, _ => none
  | _ => none

/-! ## Content parsing (`FileProcessor`, src/file_processor.rs) -/

/-- Strip one trailing carriage return. -/
def stripCr (cs : List Char) : List Char :=
  match cs.reverse with
  | '\r' :: rest => rest.reverse
  | _ => cs

/-- Helper for `rustLines`: split at newlines, accumulating the current
line in reverse. -/
def rustLinesAux : List Char → List Char → List String
  | [], acc => if acc.isEmpty then [] else [String.mk acc.reverse]
  | '\n' :: rest, acc => String.mk (stripCr acc.reverse) :: rustLinesAux rest []
  | c :: rest, acc => rustLinesAux rest (c :: acc)

/-- Rust `str::lines`: split at `\n` (stripping a preceding `\r`), the
final line ending being optional. -/
def rustLines (s : String) : List String := rustLinesAux s.data []

/-- Rust `line.trim().is_empty()`: every character is whitespace. -/
def isBlank (s : String) : Bool := s.data.all Char.isWhitespace

/-- `FileProcessor::print_json_value`: decode one JSON value into at
most one normalized record (the record the source passes to
`collect_item`). -/
def print_json_value (v : JValue) : List Item :=
  match decodeLogEntry v with
  | some entry =>
    match Item.from_log_entry entry with
    | some it => [it]
    | none => []
  | none => []

/-- The JSON-Lines loop of `FileProcessor::print_json_content`: blank
lines are skipped, lines that fail to parse are silently skipped, every
other line contributes its decoded records, in line order. -/
def processJsonLines : List String → List Item
  | [] => []
  | line :: rest =>
    if isBlank line then processJsonLines rest
    else
      match json_from_str line with
      | some j => print_json_value j ++ processJsonLines rest
      | none => processJsonLines rest

/-- `FileProcessor::print_json_content`: detect framing from the first
non-blank line; JSON-Lines when it parses alone, otherwise one whole
document; nothing when there is no non-blank line or the document fails
to parse. -/
def print_json_content (content : String) : List Item :=
  match (rustLines content).find? (fun l => ! isBlank l) with
  | none => []
  | some line =>
    if (json_from_str line).isSome then processJsonLines (rustLines content)
    else
      match json_from_str content with
      | some j => print_json_value j
      | none => []

/-! ## The aggregation table (`FileProcessor`, src/file_processor.rs) -/

/-- The aggregation key `(model, timestamp_key)`. -/
abbrev AggKey := String × String

/-- The shared accumulator `collected_items`, modelled as an association
list with unique keys (a `HashMap` has no observable order; the output
is sorted before being returned). -/
abbrev Table := List (AggKey × Usage)

/-- Table lookup by key. -/
def lookupKey (k : AggKey) : Table → Option Usage
  | [] => none
  | e :: rest => if e.1 = k then some e.2 else lookupKey k rest

/-- `entry(key).and_modify(existing = existing + usage).or_insert(usage)`. -/
def insertMerge : Table → AggKey → Usage → Table
  | [], k, u => [(k, u)]
  | e :: rest, k, u =>
      if e.1 = k then (e.1, e.2.add u) :: rest else e :: insertMerge rest k u

/-- `FileProcessor::collect_item`: a record with a present usage merges
it into the table under `(model, timestamp key)`; a record with absent
usage is dropped. -/
def collect_item (t : Table) (item : Item) : Table :=
  match item.usage with
  | some usage => insertMerge t (item.model, item.get_timestamp_key) usage
  | none => t

/-- Strict codepoint-lexicographic order on character lists: the order
Rust byte-wise `String` comparison induces (UTF-8 byte order agrees with
codepoint order). -/
def lexLt : List Char → List Char → Bool
  | [], [] => false
  | [], _ :: _ => true
  | _ :: _, [] => false
  | a :: as, b :: bs => if a = b then lexLt as bs else decide (a.toNat < b.toNat)

/-- Rust `String` comparison, strict part. -/
def strLt (a b : String) : Bool := lexLt a.data b.data

/-- Rust `String` comparison, non-strict. -/
def strLe (a b : String) : Bool := strLt a b || a == b

/-- Rust `(String, String)` ordering (`a.0.cmp(&b.0)` on the key pair):
lexicographic, model string first, then the date bucket. -/
def keyLeB (a b : AggKey) : Bool :=
  strLt a.1 b.1 || (a.1 == b.1 && strLe a.2 b.2)

/-- The ordering as a relation. -/
def keyLe (a b : AggKey) : Prop := keyLeB a b = true

instance : DecidableRel keyLe := fun a b =>
  inferInstanceAs (Decidable (keyLeB a b = true))

/-- The comparator of `get_merged_results`: compare entries by key only. -/
def entryLe (a b : AggKey × Usage) : Prop := keyLe a.1 b.1

instance : DecidableRel entryLe := fun a b =>
  inferInstanceAs (Decidable (keyLeB a.1 b.1 = true))

/-- `FileProcessor::get_merged_results`: drain the table into a sequence
sorted by key (`sort_by(|a, b| a.0.cmp(&b.0))`, a stable sort). -/
def get_merged_results (t : Table) : List (AggKey × Usage) :=
  List.insertionSort entryLe t

/-- Fold a list of decoded records into the shared table: one
linearization of the per-record merges of `process_files`. -/
def buildTable (items : List Item) : Table := items.foldl collect_item []

/-- Aggregate a list of decoded records and emit the sorted snapshot. -/
def processItems (items : List Item) : List (AggKey × Usage) :=
  get_merged_results (buildTable items)

/-! ## File discovery (`FileProcessor::process_files`) -/

/-- A directory entry of the modelled file system. -/
inductive FsEntry where
  | file (name content : String)
  | dir (name : String) (entries : List FsEntry)
  deriving Repr

/-- `path.is_file()`. -/
def FsEntry.isFile : FsEntry → Bool
  | FsEntry.file .. => true
  | FsEntry.dir .. => false

/-- `path.is_dir()`. -/
def FsEntry.isDir : FsEntry → Bool
  | FsEntry.file .. => false
  | FsEntry.dir .. => true

/-- The immediate children of an entry (empty for a file). -/
def FsEntry.children : FsEntry → List FsEntry
  | FsEntry.file .. => []
  | FsEntry.dir _ sub => sub

/-- The discovery phase of `FileProcessor::process_files`: a missing or
unreadable root (`none`) yields nothing; otherwise keep the directories
among the root's entries and collect the files directly inside them. -/
def discoverFiles : Option (List FsEntry) → List FsEntry
  | none => []
  | some entries =>
      ((entries.filter FsEntry.isDir).map
        (fun d => d.children.filter FsEntry.isFile)).flatten

/-- Split a character list at dots. -/
def splitOnDot : List Char → List (List Char)
  | [] => [[]]
  | '.' :: rest => [] :: splitOnDot rest
  | c :: rest =>
    match splitOnDot rest with
    | [] => [[ c ]]
    | p :: ps => (c :: p) :: ps

/-- Rust `Path::extension` on a file name: the part after the last dot,
unless there is no dot or the only dot is leading. -/
def fileExtension (name : String) : Option String :=
  match splitOnDot name.data with
  | [] => none
  | [_] => none
  | [ [], _ ] => none
  | parts => (parts.getLast?).map String.mk

/-- `FileProcessor::process_file`: read one file and parse its content
when the extension is `json` or `jsonl`; the records it would feed to
`collect_item`. -/
def process_file (e : FsEntry) : List Item :=
  match e with
  | FsEntry.file name content =>
      if fileExtension name = some "json" ∨ fileExtension name = some "jsonl" then
        print_json_content content
      else []
  | FsEntry.dir .. => []

/-- `FileProcessor::process_files`: discover files one subdirectory deep,
parse and decode each file's records, fold them into the shared table,
and return the sorted snapshot. -/
def process_files (root : Option (List FsEntry)) : List (AggKey × Usage) :=
  get_merged_results
    (((discoverFiles root).map process_file).foldl
      (fun t recs => recs.foldl collect_item t) [])

/-! ## Order lemmas for the key ordering -/

theorem Char.toNat_injective {a b : Char} (h : a.toNat = b.toNat) : a = b := by
  cases a; cases b
  simp only [Char.toNat] at h
  congr 1
  exact UInt32.toNat.inj h

theorem String.data_injective {a b : String} (h : a.data = b.data) : a = b := by
  cases a; cases b; congr

theorem lexLt_trans : ∀ {as bs cs : List Char},
    lexLt as bs = true → lexLt bs cs = true → lexLt as cs = true
  | [], _ :: _, _ :: _, _, _ => rfl
  | a :: as, b :: bs, c :: cs, h1, h2 => by
    simp only [lexLt] at h1 h2 ⊢
    by_cases hab : a = b <;> by_cases hbc : b = c
    · subst hab; subst hbc
      simp only [if_pos rfl] at h1 h2 ⊢
      exact lexLt_trans h1 h2
    · subst hab
      simp only [if_pos rfl, if_neg hbc] at h2 ⊢
      exact h2
    · subst hbc
      simp only [if_pos rfl, if_neg hab] at h1 ⊢
      exact h1
    · simp only [if_neg hab, if_neg hbc, decide_eq_true_eq] at h1 h2
      have hac : ¬ a = c := by
        intro h; subst h; omega
      simp only [if_neg hac, decide_eq_true_eq]
      omega

theorem lexLt_asymm : ∀ {as bs : List Char},
    lexLt as bs = true → lexLt bs as = false
  | [], [], h => by simp [lexLt] at h
  | [], _ :: _, _ => rfl
  | _ :: _, [], h => by simp [lexLt] at h
  | a :: as, b :: bs, h => by
    simp only [lexLt] at h ⊢
    by_cases hab : a = b
    · subst hab
      simp only [if_pos rfl] at h ⊢
      exact lexLt_asymm h
    · have hba : ¬ b = a := fun e => hab e.symm
      simp only [if_neg hab, decide_eq_true_eq] at h
      simp only [if_neg hba, decide_eq_false_iff_not, not_lt]
      omega

theorem lexLt_trichotomy : ∀ as bs : List Char,
    lexLt as bs = true ∨ as = bs ∨ lexLt bs as = true
  | [], [] => Or.inr (Or.inl rfl)
  | [], _ :: _ => Or.inl rfl
  | _ :: _, [] => Or.inr (Or.inr rfl)
  | a :: as, b :: bs => by
    by_cases hab : a = b
    · subst hab
      rcases lexLt_trichotomy as bs with h | h | h
      · exact Or.inl (by simp [lexLt, h])
      · exact Or.inr (Or.inl (by rw [h]))
      · exact Or.inr (Or.inr (by simp [lexLt, h]))
    · have hba : ¬ b = a := fun e => hab e.symm
      have : a.toNat < b.toNat ∨ b.toNat < a.toNat := by
        rcases Nat.lt_trichotomy a.toNat b.toNat with h | h | h
        · exact Or.inl h
        · exact absurd (Char.toNat_injective h) hab
        · exact Or.inr h
      rcases this with h | h
      · exact Or.inl (by simp [lexLt, if_neg hab, h])
      · exact Or.inr (Or.inr (by simp [lexLt, if_neg hba, h]))

theorem strLt_trans {a b c : String} (h1 : strLt a b = true)
    (h2 : strLt b c = true) : strLt a c = true :=
  lexLt_trans h1 h2

theorem strLt_asymm {a b : String} (h : strLt a b = true) : strLt b a = false :=
  lexLt_asymm h

theorem strLt_trichotomy (a b : String) :
    strLt a b = true ∨ a = b ∨ strLt b a = true := by
  rcases lexLt_trichotomy a.data b.data with h | h | h
  · exact Or.inl h
  · exact Or.inr (Or.inl (String.data_injective h))
  · exact Or.inr (Or.inr h)

theorem strLt_irrefl (a : String) : strLt a a = false := by
  cases h : strLt a a
  · rfl
  · exact absurd (strLt_asymm h) (by simp [h])

theorem keyLe_total (a b : AggKey) : keyLe a b ∨ keyLe b a := by
  unfold keyLe keyLeB strLe
  rcases strLt_trichotomy a.1 b.1 with h | h | h
  · exact Or.inl (by simp [h])
  · rcases strLt_trichotomy a.2 b.2 with h2 | h2 | h2
    · exact Or.inl (by simp [h, h2])
    · exact Or.inl (by simp [h, h2])
    · exact Or.inr (by simp [h, h2])
  · exact Or.inr (by simp [h])

theorem keyLe_trans {a b c : AggKey} (h1 : keyLe a b) (h2 : keyLe b c) :
    keyLe a c := by
  unfold keyLe keyLeB strLe at h1 h2 ⊢
  simp only [Bool.or_eq_true, Bool.and_eq_true, beq_iff_eq] at h1 h2 ⊢
  rcases h1 with h1 | ⟨h1e, h1r⟩ <;> rcases h2 with h2 | ⟨h2e, h2r⟩
  · exact Or.inl (strLt_trans h1 h2)
  · exact Or.inl (h2e ▸ h1)
  · exact Or.inl (h1e ▸ h2)
  · refine Or.inr ⟨h1e.trans h2e, ?_⟩
    rcases h1r with h1r | h1r <;> rcases h2r with h2r | h2r
    · exact Or.inl (strLt_trans h1r h2r)
    · exact Or.inl (h2r ▸ h1r)
    · exact Or.inl (h1r ▸ h2r)
    · exact Or.inr (by simp [h1r, h2r])

theorem keyLe_antisymm {a b : AggKey} (h1 : keyLe a b) (h2 : keyLe b a) :
    a = b := by
  unfold keyLe keyLeB strLe at h1 h2
  simp only [Bool.or_eq_true, Bool.and_eq_true, beq_iff_eq] at h1 h2
  rcases h1 with h1 | ⟨h1e, h1r⟩ <;> rcases h2 with h2 | ⟨h2e, h2r⟩
  · exact absurd h2 (by simp [strLt_asymm h1])
  · exact absurd h1 (by simp [h2e, strLt_irrefl])
  · exact absurd h2 (by simp [h1e, strLt_irrefl])
  · have e2 : a.2 = b.2 := by
      rcases h1r with h1r | h1r <;> rcases h2r with h2r | h2r
      · exact absurd h2r (by simp [strLt_asymm h1r])
      · exact h2r.symm
      · exact h1r
      · exact h1r
    exact Prod.ext h1e e2

instance : IsTotal (AggKey × Usage) entryLe :=
  ⟨fun a b => keyLe_total a.1 b.1⟩

instance : IsTrans (AggKey × Usage) entryLe :=
  ⟨fun _ _ _ h1 h2 => keyLe_trans h1 h2⟩

/-- Strict key ordering on entries: `keyLe` on distinct keys. -/
def entryLt (a b : AggKey × Usage) : Prop := keyLe a.1 b.1 ∧ a.1 ≠ b.1

instance : IsAntisymm (AggKey × Usage) entryLt :=
  ⟨fun _ _ h1 h2 => absurd (keyLe_antisymm h1.1 h2.1) h1.2⟩

/-! ## Aggregation-table lemmas -/

/-- The aggregation key of a record. -/
def itemKey (it : Item) : AggKey := (it.model, it.get_timestamp_key)

/-- The merged value under a key after one more usage arrives. -/
def mergeOpt (o : Option Usage) (u : Usage) : Usage :=
  match o with
  | some v => v.add u
  | none => u

/-- Per-key effect of one record on the accumulated value of that key. -/
def stepFold (k : AggKey) (o : Option Usage) (it : Item) : Option Usage :=
  match it.usage with
  | some u => if itemKey it = k then some (mergeOpt o u) else o
  | none => o

theorem lookupKey_insertMerge_same (k : AggKey) (u : Usage) :
    ∀ t : Table, lookupKey k (insertMerge t k u) = some (mergeOpt (lookupKey k t) u)
  | [] => by simp [insertMerge, lookupKey, mergeOpt]
  | e :: rest => by
    by_cases h : e.1 = k
    · simp [insertMerge, h, lookupKey, mergeOpt]
    · simp [insertMerge, h, lookupKey, lookupKey_insertMerge_same k u rest]

theorem lookupKey_insertMerge_ne {k' k : AggKey} (u : Usage) (h : k ≠ k') :
    ∀ t : Table, lookupKey k' (insertMerge t k u) = lookupKey k' t
  | [] => by simp [insertMerge, lookupKey, h]
  | e :: rest => by
    by_cases he : e.1 = k
    · simp [insertMerge, he, lookupKey, h]
    · simp [insertMerge, he, lookupKey, lookupKey_insertMerge_ne u h rest]

theorem lookupKey_collect_item (k : AggKey) (t : Table) (it : Item) :
    lookupKey k (collect_item t it) = stepFold k (lookupKey k t) it := by
  unfold collect_item stepFold
  cases hu : it.usage with
  | none => rfl
  | some u =>
    dsimp only
    by_cases hk : itemKey it = k
    · rw [if_pos hk]
      have he : (it.model, it.get_timestamp_key) = k := hk
      rw [he, lookupKey_insertMerge_same]
    · rw [if_neg hk]
      exact lookupKey_insertMerge_ne u hk t

theorem lookupKey_foldl (k : AggKey) :
    ∀ (l : List Item) (t : Table),
      lookupKey k (l.foldl collect_item t) = l.foldl (stepFold k) (lookupKey k t)
  | [], _ => rfl
  | it :: rest, t => by
    simp only [List.foldl_cons]
    rw [lookupKey_foldl k rest, lookupKey_collect_item]

theorem mergeOpt_comm (o : Option Usage) (u w : Usage) :
    mergeOpt (some (mergeOpt o u)) w = mergeOpt (some (mergeOpt o w)) u := by
  cases o with
  | none => exact Usage.add_comm u w
  | some v =>
    show (v.add u).add w = (v.add w).add u
    rw [Usage.add_assoc, Usage.add_assoc, Usage.add_comm u w]

instance (k : AggKey) : RightCommutative (stepFold k) := by
  constructor
  intro o a b
  unfold stepFold
  cases ha : a.usage <;> cases hb : b.usage <;> try rfl
  by_cases hka : itemKey a = k <;> by_cases hkb : itemKey b = k <;>
    simp [hka, hkb, mergeOpt_comm]

theorem lookup_buildTable_perm {l₁ l₂ : List Item} (hp : l₁.Perm l₂)
    (k : AggKey) : lookupKey k (buildTable l₁) = lookupKey k (buildTable l₂) := by
  unfold buildTable
  rw [lookupKey_foldl, lookupKey_foldl]
  exact hp.foldl_eq _

/-- The keys of a table, in entry order. -/
def keysOf (t : Table) : List AggKey := t.map Prod.fst

theorem mem_keysOf_insertMerge {k' k : AggKey} (u : Usage) :
    ∀ t : Table, (k' ∈ keysOf (insertMerge t k u) ↔ k' ∈ keysOf t ∨ k' = k)
  | [] => by simp [insertMerge, keysOf]
  | e :: rest => by
    by_cases he : e.1 = k
    · simp only [insertMerge, if_pos he, keysOf, List.map_cons, List.mem_cons]
      rw [he]
      tauto
    · simp only [insertMerge, if_neg he, keysOf, List.map_cons, List.mem_cons]
      rw [show (insertMerge rest k u).map Prod.fst = keysOf (insertMerge rest k u) from rfl,
        mem_keysOf_insertMerge u rest]
      tauto

theorem nodup_keysOf_insertMerge {t : Table} (h : (keysOf t).Nodup)
    (k : AggKey) (u : Usage) : (keysOf (insertMerge t k u)).Nodup := by
  induction t with
  | nil => simp [insertMerge, keysOf]
  | cons e rest ih =>
    simp only [keysOf, List.map_cons, List.nodup_cons] at h
    by_cases he : e.1 = k
    · subst he
      simpa [insertMerge, keysOf, List.nodup_cons] using h
    · have h2 := ih h.2
      simp only [insertMerge, if_neg he, keysOf, List.map_cons, List.nodup_cons]
      refine ⟨?_, h2⟩
      rw [show (insertMerge rest k u).map Prod.fst = keysOf (insertMerge rest k u) from rfl,
        mem_keysOf_insertMerge u rest]
      rintro (hm | hm)
      · exact h.1 hm
      · exact he hm

theorem nodup_keysOf_collect_item {t : Table} (h : (keysOf t).Nodup) (it : Item) :
    (keysOf (collect_item t it)).Nodup := by
  unfold collect_item
  cases it.usage
  · exact h
  · exact nodup_keysOf_insertMerge h _ _

theorem nodup_keysOf_foldl :
    ∀ (l : List Item) {t : Table}, (keysOf t).Nodup →
      (keysOf (l.foldl collect_item t)).Nodup
  | [], _, h => h
  | it :: rest, t, h => by
    simp only [List.foldl_cons]
    exact nodup_keysOf_foldl rest (nodup_keysOf_collect_item h it)

theorem nodup_keysOf_buildTable (l : List Item) : (keysOf (buildTable l)).Nodup :=
  nodup_keysOf_foldl l (by simp [keysOf])

theorem mem_table_iff_lookupKey :
    ∀ {t : Table}, (keysOf t).Nodup → ∀ {e : AggKey × Usage},
      (e ∈ t ↔ lookupKey e.1 t = some e.2) := by
  intro t
  induction t with
  | nil => simp [lookupKey]
  | cons hd rest ih =>
    intro hnd e
    simp only [keysOf, List.map_cons, List.nodup_cons] at hnd
    by_cases hk : hd.1 = e.1
    · simp only [lookupKey, if_pos hk, List.mem_cons, Option.some.injEq]
      constructor
      · rintro (h | h)
        · rw [h]
        · exact absurd (hk ▸ List.mem_map_of_mem Prod.fst h) hnd.1
      · intro h
        exact Or.inl (Prod.ext hk h).symm
    · simp only [lookupKey, if_neg hk, List.mem_cons]
      rw [ih hnd.2]
      constructor
      · rintro (h | h)
        · exact absurd (congrArg Prod.fst h).symm hk
        · exact h
      · exact Or.inr

theorem table_perm_of_lookup_eq {t₁ t₂ : Table}
    (h₁ : (keysOf t₁).Nodup) (h₂ : (keysOf t₂).Nodup)
    (h : ∀ k, lookupKey k t₁ = lookupKey k t₂) : t₁.Perm t₂ := by
  rw [List.perm_ext_iff_of_nodup (h₁.of_map Prod.fst) (h₂.of_map Prod.fst)]
  intro e
  rw [mem_table_iff_lookupKey h₁, mem_table_iff_lookupKey h₂, h e.1]

theorem sorted_get_merged_results (t : Table) :
    (get_merged_results t).Sorted entryLe :=
  List.sorted_insertionSort entryLe t

theorem perm_get_merged_results (t : Table) : (get_merged_results t).Perm t :=
  List.perm_insertionSort entryLe t

theorem pairwise_entryLt_of_sorted {l : List (AggKey × Usage)}
    (hs : l.Sorted entryLe) (hnd : (keysOf l).Nodup) : l.Pairwise entryLt := by
  unfold keysOf List.Nodup at hnd
  rw [List.pairwise_map] at hnd
  exact (hs.and hnd).imp fun h => ⟨h.1, h.2⟩

theorem get_merged_results_eq_of_perm {t₁ t₂ : Table}
    (h₁ : (keysOf t₁).Nodup) (h₂ : (keysOf t₂).Nodup) (hp : t₁.Perm t₂) :
    get_merged_results t₁ = get_merged_results t₂ := by
  have p₁ := perm_get_merged_results t₁
  have p₂ := perm_get_merged_results t₂
  have hperm : (get_merged_results t₁).Perm (get_merged_results t₂) :=
    (p₁.trans hp).trans p₂.symm
  have nd₁ : (keysOf (get_merged_results t₁)).Nodup := (p₁.map Prod.fst).nodup_iff.mpr h₁
  have nd₂ : (keysOf (get_merged_results t₂)).Nodup := (p₂.map Prod.fst).nodup_iff.mpr h₂
  exact List.eq_of_perm_of_sorted (r := entryLt) hperm
    (pairwise_entryLt_of_sorted (sorted_get_merged_results t₁) nd₁)
    (pairwise_entryLt_of_sorted (sorted_get_merged_results t₂) nd₂)

/-- The per-file fold of `process_files`: each file's records are folded
into the shared table, file after file (one linearization of the
parallel run). -/
def foldFiles (files : List (List Item)) : Table :=
  files.foldl (fun t recs => recs.foldl collect_item t) []

theorem foldFiles_eq_buildTable (files : List (List Item)) :
    foldFiles files = buildTable files.flatten := by
  unfold foldFiles buildTable
  have : ∀ (fs : List (List Item)) (t : Table),
      fs.foldl (fun t recs => recs.foldl collect_item t) t =
        fs.flatten.foldl collect_item t := by
    intro fs
    induction fs with
    | nil => intro t; rfl
    | cons f rest ih =>
      intro t
      simp only [List.foldl_cons, List.flatten_cons, List.foldl_append]
      exact ih _
  exact this files []

theorem processItems_eq_of_perm {l₁ l₂ : List Item} (hp : l₁.Perm l₂) :
    processItems l₁ = processItems l₂ :=
  get_merged_results_eq_of_perm (nodup_keysOf_buildTable l₁)
    (nodup_keysOf_buildTable l₂)
    (table_perm_of_lookup_eq (nodup_keysOf_buildTable l₁)
      (nodup_keysOf_buildTable l₂) (lookup_buildTable_perm hp))

/-! ## Claims -/

/-- C1, as stated, is false on the code: `collect_item` only touches the
table when the record's usage is present (`if let Some(usage)`), so a
record whose usage is `None` contributes nothing — not even its key.
Concretely, aggregating the single record
`{model "m", timestamp "2024-01-01T00:00:00Z", usage None}` leaves the
table empty, and its aggregation key is absent from the table. -/
theorem c1_counterexample :
    buildTable [⟨"m", "2024-01-01T00:00:00Z", none⟩] = [] ∧
      lookupKey ("m", "2024-01-01")
        (buildTable [⟨"m", "2024-01-01T00:00:00Z", none⟩]) = none :=
  ⟨rfl, rfl⟩

/-- C1 (amended): a decoded record with a present usage counter (even an
all-absent one) merges that counter into the shared table under its
aggregation key, leaving other keys unchanged; a record whose usage is
absent contributes nothing at all — neither counts nor its key. -/
theorem c1_claim (t : Table) (it : Item) :
    (it.usage = none → collect_item t it = t) ∧
    (∀ u, it.usage = some u →
      lookupKey (itemKey it) (collect_item t it) =
        some (mergeOpt (lookupKey (itemKey it) t) u) ∧
      ∀ k, k ≠ itemKey it → lookupKey k (collect_item t it) = lookupKey k t) := by
  constructor
  · intro h
    unfold collect_item
    rw [h]
  · intro u hu
    unfold collect_item
    rw [hu]
    constructor
    · exact lookupKey_insertMerge_same (itemKey it) u t
    · intro k hk
      exact lookupKey_insertMerge_ne u (fun e => hk e.symm) t

/-- Witness for C1: a usage-less record leaves the empty table empty; a
record with usage merges it under the record's key. -/
theorem c1_witness :
    (collect_item [] ⟨"m", "t", none⟩ = []) ∧
      lookupKey (itemKey ⟨"m", "t", some ⟨some 5, none, none, none⟩⟩)
          (collect_item [] ⟨"m", "t", some ⟨some 5, none, none, none⟩⟩) =
        some (mergeOpt
          (lookupKey (itemKey ⟨"m", "t", some ⟨some 5, none, none, none⟩⟩) [])
          ⟨some 5, none, none, none⟩) :=
  ⟨(c1_claim [] _).1 rfl, ((c1_claim [] _).2 _ rfl).1⟩

/-- C2, as stated, is false on the code for `u32` overflow: the token
fields are `u32`, so `Some(a) + Some(b)` wraps modulo `2^32` rather than
producing the mathematical sum.  Concretely `2^31 + 2^31` merges to
`Some 0`, not `Some (2^31 + 2^31)`. -/
theorem c2_counterexample :
    (Usage.add ⟨some 2147483648, none, none, none⟩
        ⟨some 2147483648, none, none, none⟩).input_tokens ≠
      some (2147483648 + 2147483648) := by
  decide

/-- C2 (amended): for each of the four token fields, the field is present
in `merge(a,b)` iff it is present in at least one operand, and its value
combines the present operand values with absent as identity, the sum
being taken modulo `2^32` (`u32` arithmetic): `None+None = None`,
`Some(a)+None = Some(a)`, `None+Some(b) = Some(b)`,
`Some(a)+Some(b) = Some((a+b) mod 2^32)`. -/
theorem c2_claim (a b : Usage) :
    ∀ f ∈ [Usage.input_tokens, Usage.output_tokens,
        Usage.cache_creation_input_tokens, Usage.cache_read_input_tokens],
      (f (a.add b) = none ↔ (f a = none ∧ f b = none)) ∧
      (∀ x, f a = some x → f b = none → f (a.add b) = some x) ∧
      (∀ y, f a = none → f b = some y → f (a.add b) = some y) ∧
      (∀ x y, f a = some x → f b = some y →
        f (a.add b) = some ((x + y) % u32Mod)) := by
  intro f hf
  have key : ∀ (o p : Option Nat), (addField o p = none ↔ (o = none ∧ p = none)) ∧
      (∀ x, o = some x → p = none → addField o p = some x) ∧
      (∀ y, o = none → p = some y → addField o p = some y) ∧
      (∀ x y, o = some x → p = some y → addField o p = some ((x + y) % u32Mod)) := by
    intro o p
    cases o <;> cases p <;> simp [addField]
  simp only [List.mem_cons, List.not_mem_nil, or_false] at hf
  rcases hf with hf | hf | hf | hf <;> subst hf <;>
    simpa [Usage.add] using key _ _

/-- Witness for C2: both fields present merge to the sum mod `2^32`;
a one-sided field carries over. -/
theorem c2_witness :
    (Usage.add ⟨some 1, some 7, none, none⟩
        ⟨some 2, none, none, none⟩).input_tokens = some ((1 + 2) % u32Mod) ∧
      (Usage.add ⟨some 1, some 7, none, none⟩
        ⟨some 2, none, none, none⟩).output_tokens = some 7 :=
  ⟨(c2_claim _ _ Usage.input_tokens (List.Mem.head _)).2.2.2 1 2 rfl rfl,
   (c2_claim _ _ Usage.output_tokens
      (List.Mem.tail _ (List.Mem.head _))).2.1 7 rfl rfl⟩

/-- C3: merging usage counters is commutative and associative, and the
counter with all four fields absent (`Usage::default()`) is a two-sided
identity. -/
theorem c3_claim (a b c : Usage) :
    a.add b = b.add a ∧ (a.add b).add c = a.add (b.add c) ∧
      a.add Usage.empty = a ∧ Usage.empty.add a = a :=
  ⟨Usage.add_comm a b, Usage.add_assoc a b c, Usage.add_empty a,
    Usage.empty_add a⟩

/-- C9: the date bucket parses the timestamp as an RFC 3339 instant and
formats its UTC date as `YYYY-MM-DD`; an unparsable timestamp is used
verbatim.  Concretely, `2024-01-01T12:34:56.789Z` buckets to
`2024-01-01` and the unparsable `not-a-date` buckets to itself. -/
theorem c9_claim (it : Item) :
    (∀ d, parseUtcDate it.timestamp = some d →
      it.get_timestamp_key = formatYMD d) ∧
    (parseUtcDate it.timestamp = none → it.get_timestamp_key = it.timestamp) ∧
    (⟨"m", "2024-01-01T12:34:56.789Z", none⟩ : Item).get_timestamp_key =
      "2024-01-01" ∧
    (⟨"m", "not-a-date", none⟩ : Item).get_timestamp_key = "not-a-date" := by
  refine ⟨?_, ?_, by decide, by decide⟩
  · intro d hd
    unfold Item.get_timestamp_key
    rw [hd]
  · intro hd
    unfold Item.get_timestamp_key
    rw [hd]

/-- Witness for C9: a parsable timestamp buckets to its formatted UTC
day; an unparsable one buckets to itself. -/
theorem c9_witness :
    (⟨"m", "2024-01-01T00:00:00Z", none⟩ : Item).get_timestamp_key =
      formatYMD ⟨2024, 1, 1⟩ ∧
    (⟨"m", "nope", none⟩ : Item).get_timestamp_key = "nope" :=
  ⟨(c9_claim ⟨"m", "2024-01-01T00:00:00Z", none⟩).1 ⟨2024, 1, 1⟩ rfl,
   (c9_claim ⟨"m", "nope", none⟩).2.1 rfl⟩

/-- C10: token fields are `u32` (embedded as naturals below `2^32`,
closed under merge) and, for each of the four token fields, merge adds
present values modulo `2^32`; the result is the exact sum exactly when
that sum stays below `2^32`, and a field total reaching `2^32` is not
representable: the merged value differs from the mathematical sum. -/
theorem c10_claim (u v : Usage) (hu : u.Wf) (hv : v.Wf) :
    (u.add v).Wf ∧
    (∀ f ∈ [Usage.input_tokens, Usage.output_tokens,
        Usage.cache_creation_input_tokens, Usage.cache_read_input_tokens],
      ∀ x y, f u = some x → f v = some y →
        f (u.add v) = some ((x + y) % u32Mod) ∧
        (x + y < u32Mod → f (u.add v) = some (x + y)) ∧
        (u32Mod ≤ x + y → f (u.add v) ≠ some (x + y))) := by
  constructor
  · have key : ∀ (o p : Option Nat), fieldWf o → fieldWf p → fieldWf (addField o p) := by
      intro o p ho hp
      cases o with
      | none =>
        cases p with
        | none => trivial
        | some b => exact hp
      | some a =>
        cases p with
        | none => exact ho
        | some b => exact Nat.mod_lt _ (by decide)
    obtain ⟨h1, h2, h3, h4⟩ := hu
    obtain ⟨g1, g2, g3, g4⟩ := hv
    exact ⟨key _ _ h1 g1, key _ _ h2 g2, key _ _ h3 g3, key _ _ h4 g4⟩
  · have key : ∀ (o p : Option Nat) (x y : Nat), o = some x → p = some y →
        addField o p = some ((x + y) % u32Mod) ∧
        (x + y < u32Mod → addField o p = some (x + y)) ∧
        (u32Mod ≤ x + y → addField o p ≠ some (x + y)) := by
      intro o p x y hx hy
      subst hx
      subst hy
      refine ⟨rfl, ?_, ?_⟩
      · intro hlt
        rw [show addField (some x) (some y) = some ((x + y) % u32Mod) from rfl,
          Nat.mod_eq_of_lt hlt]
      · intro hge heq
        rw [show addField (some x) (some y) = some ((x + y) % u32Mod) from rfl] at heq
        have hm : (x + y) % u32Mod < u32Mod := Nat.mod_lt _ (by decide)
        rw [Option.some.inj heq] at hm
        exact absurd hm (Nat.not_lt.mpr hge)
    intro f hf
    simp only [List.mem_cons, List.not_mem_nil, or_false] at hf
    rcases hf with hf | hf | hf | hf <;> subst hf <;>
      exact fun x y hx hy => key _ _ x y hx hy

/-- Witness for C10: at `2^31 + 2^31` the merged counter is well-formed
while its `input_tokens` and `output_tokens` fields both differ from the
mathematical sum. -/
theorem c10_witness :
    (Usage.add ⟨some 2147483648, some 2147483648, none, none⟩
        ⟨some 2147483648, some 2147483648, none, none⟩).Wf ∧
      (Usage.add ⟨some 2147483648, some 2147483648, none, none⟩
        ⟨some 2147483648, some 2147483648, none, none⟩).input_tokens ≠
        some (2147483648 + 2147483648) ∧
      (Usage.add ⟨some 2147483648, some 2147483648, none, none⟩
        ⟨some 2147483648, some 2147483648, none, none⟩).output_tokens ≠
        some (2147483648 + 2147483648) := by
  have h := c10_claim ⟨some 2147483648, some 2147483648, none, none⟩
    ⟨some 2147483648, some 2147483648, none, none⟩ (by decide) (by decide)
  exact ⟨h.1,
    (h.2 Usage.input_tokens (List.Mem.head _) _ _ rfl rfl).2.2 (by decide),
    (h.2 Usage.output_tokens (List.Mem.tail _ (List.Mem.head _)) _ _ rfl rfl).2.2
      (by decide)⟩

/-- A record for the C4 witness. -/
def witItemA : Item := ⟨"m", "2024-01-01T00:00:00Z", some ⟨some 1, none, none, none⟩⟩

/-- Another record for the C4 witness, under a different key. -/
def witItemB : Item := ⟨"n", "2024-01-02T00:00:00Z", some ⟨none, some 2, none, none⟩⟩

/-- C4: folding a fixed multiset of decoded records into the keyed table
in any order and any grouping into files, then sorting, yields the same
output sequence.  (Two runs over unchanged input are the same fold, so
their outputs are identical by this theorem with `files₁ = files₂`;
the concurrency nondeterminism of the real run is exactly the choice of
linearization, i.e. of the permutation.) -/
theorem c4_claim (files₁ files₂ : List (List Item))
    (hp : files₁.flatten.Perm files₂.flatten) :
    get_merged_results (foldFiles files₁) = get_merged_results (foldFiles files₂) := by
  rw [foldFiles_eq_buildTable, foldFiles_eq_buildTable]
  exact processItems_eq_of_perm hp

/-- Witness for C4: two records, split into two files or given as one
file in swapped order, aggregate to the same output. -/
theorem c4_witness :
    get_merged_results (foldFiles [[ witItemA ], [ witItemB ]]) =
      get_merged_results (foldFiles [[ witItemB, witItemA ]]) :=
  c4_claim _ _ (List.Perm.swap witItemB witItemA [])

/-- A record for the C5 ordering example, key ("gpt", "2024-02-01"). -/
def exGptItem : Item := ⟨"gpt", "2024-02-01T00:00:00Z", some ⟨some 1, none, none, none⟩⟩

/-- A record for the C5 ordering example, key ("claude", "2024-01-01"). -/
def exClaudeItem : Item :=
  ⟨"claude", "2024-01-01T00:00:00Z", some ⟨some 2, none, none, none⟩⟩

/-- C5: the final sequence is sorted by aggregation key, model string
first, then date bucket, lexicographically; the key
("claude","2024-01-01") orders strictly before ("gpt","2024-02-01"), and
aggregating records given in the opposite order emits claude first. -/
theorem c5_claim (root : Option (List FsEntry)) :
    (process_files root).Sorted entryLe ∧
    keyLe ("claude", "2024-01-01") ("gpt", "2024-02-01") ∧
    ¬ keyLe ("gpt", "2024-02-01") ("claude", "2024-01-01") ∧
    processItems [exGptItem, exClaudeItem] =
      [(("claude", "2024-01-01"), ⟨some 2, none, none, none⟩),
       (("gpt", "2024-02-01"), ⟨some 1, none, none, none⟩)] :=
  ⟨List.sorted_insertionSort entryLe _, by decide, by decide, by decide⟩

/-- Three-line JSON-Lines content whose second line is invalid JSON. -/
def exampleJsonl : String :=
  "\x7b\"timestamp\":\"2024-01-01T01:00:00Z\",\"message\":\x7b\"model\":\"m\",\"usage\":\x7b\"input_tokens\":10\x7d\x7d\x7d\nBAD LINE\n\x7b\"timestamp\":\"2024-01-01T02:00:00Z\",\"message\":\x7b\"model\":\"m\",\"usage\":\x7b\"output_tokens\":20\x7d\x7d\x7d"

/-- C6: in JSON-Lines mode each line is parsed independently and a line
that fails to parse contributes zero records while processing continues,
with no error (the processing function is total, returning only the
record list).  In particular, the three-line content whose second line is
invalid yields exactly the records of lines 1 and 3. -/
theorem c6_claim :
    (∀ (ls₁ ls₂ : List String) (bad : String), json_from_str bad = none →
      processJsonLines (ls₁ ++ bad :: ls₂) = processJsonLines (ls₁ ++ ls₂)) ∧
    print_json_content exampleJsonl =
      [⟨"m", "2024-01-01T01:00:00Z", some ⟨some 10, none, none, none⟩⟩,
       ⟨"m", "2024-01-01T02:00:00Z", some ⟨none, some 20, none, none⟩⟩] := by
  constructor
  · intro ls₁ ls₂ bad hbad
    induction ls₁ with
    | nil =>
      simp only [List.nil_append, processJsonLines]
      by_cases hb : isBlank bad
      · rw [if_pos hb]
      · rw [if_neg hb, hbad]
    | cons l ls ih =>
      simp only [List.cons_append, processJsonLines, List.append_eq, ih]
  · rfl

/-- Witness for C6: dropping a concrete unparsable line from a concrete
line list does not change the records. -/
theorem c6_witness :
    json_from_str "BAD LINE" = none ∧
      processJsonLines ([ "\x7b\x7d" ] ++ "BAD LINE" :: [ "\x7b\x7d" ]) =
        processJsonLines ([ "\x7b\x7d" ] ++ [ "\x7b\x7d" ]) :=
  ⟨rfl, c6_claim.1 _ _ _ rfl⟩

/-- The single-line content of the C7 example. -/
def exampleSingle : String :=
  "\x7b\"timestamp\":\"2024-01-01T00:00:00Z\",\"message\":\x7b\"model\":\"m\",\"usage\":\x7b\"input_tokens\":5\x7d\x7d\x7d"

/-- C7: framing is decided by the first non-blank line — if it parses as
a standalone JSON value the whole content is processed line by line,
otherwise the entire content is parsed as one document; content with no
non-blank line yields nothing.  The concrete one-line example yields
exactly one record with model "m", date bucket "2024-01-01" and
`input_tokens` 5. -/
theorem c7_claim (content : String) :
    ((rustLines content).find? (fun l => ! isBlank l) = none →
      print_json_content content = []) ∧
    (∀ l₀, (rustLines content).find? (fun l => ! isBlank l) = some l₀ →
      (((json_from_str l₀).isSome = true →
        print_json_content content = processJsonLines (rustLines content)) ∧
      (json_from_str l₀ = none →
        print_json_content content =
          match json_from_str content with
          | some j => print_json_value j
          | none => []))) ∧
    print_json_content exampleSingle =
      [⟨"m", "2024-01-01T00:00:00Z", some ⟨some 5, none, none, none⟩⟩] ∧
    (⟨"m", "2024-01-01T00:00:00Z", some ⟨some 5, none, none, none⟩⟩ :
        Item).get_timestamp_key = "2024-01-01" ∧
    processItems (print_json_content exampleSingle) =
      [(("m", "2024-01-01"), ⟨some 5, none, none, none⟩)] := by
  refine ⟨?_, ?_, rfl, rfl, rfl⟩
  · intro h
    unfold print_json_content
    rw [h]
  · intro l₀ h
    constructor
    · intro hs
      unfold print_json_content
      rw [h]
      simp only [hs, if_true]
    · intro hn
      unfold print_json_content
      rw [h]
      simp [hn]

/-- Witness for C7: empty content has no non-blank line and yields no
records; in the concrete JSON-Lines example the first line is valid, so
the content is processed line by line. -/
theorem c7_witness :
    print_json_content "" = [] ∧
      print_json_content exampleJsonl = processJsonLines (rustLines exampleJsonl) :=
  ⟨(c7_claim "").1 rfl,
   (((c7_claim exampleJsonl).2.1 _ rfl).1) rfl⟩

/-- C8: the discovery phase visits exactly the regular files that sit
directly inside an immediate subdirectory of the root — files in the
root itself or nested deeper are not among them — and a missing or
unreadable root makes `process_files` return the empty sequence. -/
theorem c8_claim (entries : List FsEntry) (f : FsEntry) :
    process_files none = [] ∧
    (f ∈ discoverFiles (some entries) ↔
      f.isFile = true ∧ ∃ name sub, FsEntry.dir name sub ∈ entries ∧ f ∈ sub) := by
  refine ⟨rfl, ?_, ?_⟩
  · intro hf
    unfold discoverFiles at hf
    rw [List.mem_flatten] at hf
    obtain ⟨l, hl, hfl⟩ := hf
    rw [List.mem_map] at hl
    obtain ⟨d, hd, rfl⟩ := hl
    rw [List.mem_filter] at hd
    cases d with
    | file n c => simp [FsEntry.isDir] at hd
    | dir n sub =>
      rw [List.mem_filter] at hfl
      exact ⟨hfl.2, n, sub, hd.1, hfl.1⟩
  · rintro ⟨hfile, n, sub, hmem, hfsub⟩
    unfold discoverFiles
    rw [List.mem_flatten]
    refine ⟨sub.filter FsEntry.isFile, ?_, ?_⟩
    · rw [List.mem_map]
      exact ⟨FsEntry.dir n sub, List.mem_filter.mpr ⟨hmem, rfl⟩, rfl⟩
    · exact List.mem_filter.mpr ⟨hfsub, hfile⟩
